import Mathlib

/-!
Shallow embedding of `src/scarches/trainers/mars/mars_meta_trainer.py`
(class `MARSTrainer`), used to settle the claims C1..C10 about the
MARS meta-training loop, its losses, landmark updates and label transfer.

Real-valued tensors are modelled over `ℚ` (exact arithmetic; the claims are
about the arithmetic structure of the code, not floating-point rounding).
Vectors (rows of a tensor of shape `(·, D)`) are `List ℚ`.  Code that raises
a Python exception on some input (`torch.stack` on an empty list,
`ZeroDivisionError`, `KeyError`, out-of-range indexing) is translated into
`Option`/`Except` results, with the failing branch noted at the definition.

`euclidean_dist` lives in `scarches/trainers/mars/_utils.py`, which is not
part of the sources; the loss functions therefore take the distance function
as an explicit parameter `dist`, and a one-dimensional instance (where the
Euclidean distance is exact over `ℚ`) is provided for concrete evaluation.
-/

/-- Mean of a list of rationals: `x.mean()` of a nonempty 1-d tensor.
(`x.mean()` of an empty tensor is NaN in torch; here the junk value `0`
is produced, and every theorem that touches a mean keeps the underlying
list nonempty, as the training code does.) -/
def qmean (l : List ℚ) : ℚ := l.sum / l.length

/-- `torch.unique(x, sorted=True)` / `np.unique(x)` on an integer tensor:
the distinct values in strictly increasing order. -/
def sortedUnique (l : List ℕ) : List ℕ := List.insertionSort (· ≤ ·) l.dedup

/-- Value part of `torch.min(row)` over a nonempty row (junk `0` on `[]`). -/
def listMin : List ℚ → ℚ
  | [] => 0
  | [a] => a
  | a :: b :: t => min a (listMin (b :: t))

/-- Index part of `torch.min(distances, dim=1)` (equivalently of
`torch.max(-distances, dim=1)`): the index of the first occurrence of the
minimal value of the row. -/
def argminFirst : List ℚ → ℕ
  | [] => 0
  | [_] => 0
  | a :: b :: t => if a ≤ listMin (b :: t) then 0 else argminFirst (b :: t) + 1

/-- A row of a real tensor of shape `(·, D)`. -/
abbrev Vec := List ℚ

/-- Elementwise sum of two rows (`torch` broadcasting-free `+`). -/
def vadd (a b : Vec) : Vec := List.zipWith (· + ·) a b

/-- Elementwise difference of two rows. -/
def vsub (a b : Vec) : Vec := List.zipWith (· - ·) a b

/-- Scalar multiple of a row. -/
def vscale (c : ℚ) (v : Vec) : Vec := v.map (fun x => c * x)

/-- `t.sum(0)` of a nonempty stack of rows (`[]` for an empty stack). -/
def vsum : List Vec → Vec
  | [] => []
  | v :: t => t.foldl vadd v

/-- `t.mean(0)` of a nonempty stack of rows. -/
def vmean (l : List Vec) : Vec := vscale (1 / (l.length : ℚ)) (vsum l)

/-- Modelled from the spec: `euclidean_dist(A, B)` of
`scarches/trainers/mars/_utils.py` (not under the sources) returns the
pairwise Euclidean distances between two sets of vectors.  It is modelled
here in one dimension, where the Euclidean distance `|a - b|` is exact
over `ℚ`; the distance-generic definitions below take any distance
function, and this instance is used for concrete evaluation. -/
def euclidean_dist (a b : ℚ) : ℚ := |a - b|

/-- `MARSTrainer.test_loss(embeddings, landmarks, tau)` (lines 289-302):
per-embedding nearest-landmark distance, grouped by the chosen landmark
index (`y_hat`), averaged within each nonempty group and then across the
groups that actually occur; for `tau > 0` the `tau`-scaled total pairwise
landmark distance (the full `n × n` matrix sum) divided by
`n_landmarks * (n_landmarks - 1)` is subtracted. -/
def test_loss {α : Type} (dist : α → α → ℚ) (embeddings landmarks : List α)
    (tau : ℚ) : ℚ :=
  let pairs := embeddings.map (fun e =>
    let row := landmarks.map (dist e)
    (argminFirst row, listMin row))
  let y_hat := pairs.map (fun p => p.1)
  let uniq := sortedUnique y_hat
  let loss := qmean (uniq.map (fun u =>
    qmean ((pairs.filter (fun p => p.1 = u)).map (fun p => p.2))))
  if tau > 0 then
    let n : ℚ := (landmarks.length : ℚ)
    loss - (landmarks.map (fun a => (landmarks.map (dist a)).sum)).sum * tau
      / (n * (n - 1))
  else loss

/-- One value pushed through the in-place relabelling loop of
`task_loss` / `evaluate_on_unannotated_dataset`
(`for idx, value in enumerate(unique_labels): labels[labels == value] = idx`):
the fold of the substitutions `value ↦ idx` over the `(idx, value)` pairs. -/
def rewriteVal (pairs : List (ℕ × ℕ)) (x : ℕ) : ℕ :=
  pairs.foldl (fun y p => if y = p.2 then p.1 else y) x

/-- The in-place relabelling loop itself, acting on the whole label list. -/
def rewriteLoop (uniq labels : List ℕ) : List ℕ :=
  uniq.enum.foldl (fun ls p => ls.map (fun x => if x = p.2 then p.1 else x)) labels

/-- `MARSTrainer.task_loss(embeddings, labels, landmarks)` (lines 269-287):
supervised loss (sum over classes of the distances of the class members to
the landmark with the class's re-indexed label, over the sample count) and
the nearest-landmark accuracy against the re-indexed labels.
`class_indices` is computed from the original labels before the in-place
re-indexing, exactly as in the source. -/
def task_loss {α : Type} (dist : α → α → ℚ) (embeddings : List α)
    (labels : List ℕ) (landmarks : List α) : ℚ × ℚ :=
  let n_samples := embeddings.length
  let uniq := sortedUnique labels
  let distances := embeddings.map (fun e => landmarks.map (dist e))
  let newLabels := rewriteLoop uniq labels
  let loss := ((uniq.enum.map (fun p =>
    (((labels.zip distances).filter (fun q => q.1 = p.2)).map
      (fun q => q.2.getD p.1 0)).sum)).sum) / (n_samples : ℚ)
  let y_pred := distances.map argminFirst
  let accuracy :=
    (((y_pred.zip newLabels).filter (fun p => p.1 = p.2)).length : ℚ)
      / (n_samples : ℚ)
  (loss, accuracy)

/-- The members of `embeddings` whose label equals `v`
(`embeddings[class_index]` for `class_index = (labels == v).nonzero()`). -/
def classEmb (embeddings : List Vec) (labels : List ℕ) (v : ℕ) : List Vec :=
  ((labels.zip embeddings).filter (fun q => q.1 = v)).map (fun q => q.2)

/-- `landmarks_mean` of `update_meta_train_landmarks` (line 308): the
per-class mean embedding, one row per sorted distinct label.
(The source's trailing `.squeeze()` only reshapes singleton tensor
dimensions and is not represented in the list model.) -/
def landmarksMeanOf (embeddings : List Vec) (labels : List ℕ) : List Vec :=
  (sortedUnique labels).map (fun v => vmean (classEmb embeddings labels v))

/-- `MARSTrainer.update_meta_train_landmarks(embeddings, labels,
previous_landmarks, tau)` (lines 304-319).  `none` models a raised Python
exception: `torch.stack` on an empty list when `labels` is empty (line 308),
`ZeroDivisionError` in `tau / (n_landmarks - 1)` when there are fewer than
two previous landmarks (line 315; `previous_landmarks` of length 0 instead
fails at the `torch.stack` of line 316), and `ZeroDivisionError` in
`1 / (1 - tau)` when `tau = 1` (line 317). -/
def update_meta_train_landmarks (embeddings : List Vec) (labels : List ℕ)
    (previous_landmarks : Option (List Vec)) (tau : ℚ) : Option (List Vec) :=
  if labels = [] then none
  else
    let landmarks_mean := landmarksMeanOf embeddings labels
    match previous_landmarks with
    | none => some landmarks_mean
    | some prev =>
      if tau = 0 then some landmarks_mean
      else if prev.length ≤ 1 then none
      else if tau = 1 then none
      else
        let prevSum := vsum prev
        let distPart := prev.map (fun p =>
          vscale (tau / ((prev.length : ℚ) - 1)) (vsub prevSum p))
        some (List.zipWith (fun m p => vscale (1 / (1 - tau)) (vsub m p))
          landmarks_mean distPart)

/-- One labeled-task batch as seen by the encoder-optimization phase of
`on_epoch` (lines 186-199): the scalar total model loss returned by
`self.model(X, c)` (reconstruction + KL), the scalar `task_loss` of the
batch, and the batch size `len(X)`. -/
structure Batch where
  recon : ℚ
  taskL : ℚ
  size : ℕ
deriving DecidableEq

/-- `len(task_data_loader_tr.dataset)`: the total sample count of a task,
the sum of its batch sizes. -/
def taskDatasetSize (t : List Batch) : ℕ := (t.map (fun b => b.size)).sum

/-- The labeled-task part of the encoder phase (lines 185-198), literally as
written: the running variable `loss` is overwritten by every
`encoded, _, loss, _, _ = self.model(X, c)` and then set to
`eta * loss + task_loss / len(dataset)` after each task's batch loop. -/
def encoderTaskPhase (eta : ℚ) (loss0 : ℚ) (t : List Batch) : ℚ :=
  let p := t.foldl (fun (acc : ℚ × ℚ) b => (b.recon, acc.2 + b.taskL * (b.size : ℚ)))
    (loss0, 0)
  eta * p.1 + p.2 / (taskDatasetSize t : ℚ)

/-- The scalar loss that `on_epoch` backpropagates in its encoder-update
phase (lines 185-212), literally as written: after the labeled-task loop,
the meta-test loop again overwrites `loss` per batch
(`encoded, _, loss, _, _ = self.model(X, c)` then
`loss = self.eta * loss + self.test_loss(...)`), and the final value is
divided by `n_tasks + 1`.  Each meta-test batch is a pair
`(model loss, test_loss value)`. -/
def on_epoch_encoder_loss (eta : ℚ) (tasks : List (List Batch))
    (testBatches : List (ℚ × ℚ)) : ℚ :=
  let lossTasks := tasks.foldl (fun loss t => encoderTaskPhase eta loss t) 0
  let lossTest := testBatches.foldl (fun _ b => eta * b.1 + b.2) lossTasks
  lossTest / ((tasks.length : ℚ) + 1)

/-- Modelled from the spec (§4.4 step 5, the sentence behind claim C1):
the combined loss accumulates every labeled task's
`eta * reconstruction_loss + task_loss` (the task's average task loss, its
reconstruction losses summed over its batches) plus the unlabeled task's
`eta * reconstruction_loss + test_loss`, divided by `n_tasks + 1`. -/
def on_epoch_encoder_loss_spec (eta : ℚ) (tasks : List (List Batch))
    (testBatches : List (ℚ × ℚ)) : ℚ :=
  ((tasks.map (fun t =>
      eta * (t.map (fun b => b.recon)).sum
        + (t.map (fun b => b.taskL * (b.size : ℚ))).sum / (taskDatasetSize t : ℚ))).sum
    + eta * (testBatches.map (fun b => b.1)).sum
    + (testBatches.map (fun b => b.2)).sum)
    / ((tasks.length : ℚ) + 1)

/-- The optimizer- and scheduler-facing calls of the training loop. -/
inductive OptEvent where
  | landmarkZeroGrad
  | backwardCall
  | landmarkStep
  | encoderZeroGrad
  | encoderStep
  | schedulerStep
deriving DecidableEq

/-- The ordered optimizer/scheduler calls made by one `on_epoch`
(lines 146-215): `meta_test_landmark_optimizer.zero_grad()` (line 153); per
meta-test batch `loss.backward(); meta_test_landmark_optimizer.step()`
(lines 175-176); `optimizer.zero_grad()` (line 183); one final
`loss.backward(); optimizer.step()` (lines 212-213).  No other method of
`self.optimizer`, `self.meta_test_landmark_optimizer` or
`self.lr_scheduler` is called anywhere in `on_epoch`. -/
def on_epoch_opt_events (nTestBatches : ℕ) : List OptEvent :=
  [OptEvent.landmarkZeroGrad]
    ++ (List.replicate nTestBatches
        [OptEvent.backwardCall, OptEvent.landmarkStep]).flatten
    ++ [OptEvent.encoderZeroGrad, OptEvent.backwardCall, OptEvent.encoderStep]

/-- The optimizer/scheduler calls of the whole `train` loop
(lines 105-144): per epoch, `on_epoch` followed by `on_epoch_end`, which
runs entirely under `torch.no_grad()` and calls no optimizer or scheduler
method; `train` itself calls none either.  `self.lr_scheduler` is created
at lines 61-63 and never appears after that. -/
def train_opt_events (nEpochs nTestBatches : ℕ) : List OptEvent :=
  (List.replicate nEpochs (on_epoch_opt_events nTestBatches)).flatten

/-- The probability normalization of `name_cell_types` (line 389):
`prob = np.divide(prob, np.sum(prob))`. -/
def normalizeProb (prob : List ℚ) : List ℚ := prob.map (fun p => p / prob.sum)

/-- The per-cell-type aggregation of `name_cell_types` (lines 391-394):
for each distinct landmark label, the sum of the probabilities of the
landmarks carrying that label. -/
def probUnique (landmkLabels : List ℕ) (probN : List ℚ) : List ℚ :=
  (sortedUnique landmkLabels).map (fun c =>
    (((landmkLabels.zip probN).filter (fun p => p.1 = c)).map (fun p => p.2)).sum)

/-- `np.argsort` (ascending, stable) of a list of scores, as the index
list; used for `sorted = np.argsort(prob_unique)` (line 396). -/
def argsortAsc (l : List ℚ) : List ℕ :=
  (List.insertionSort (fun a b : ℕ × ℚ => a.2 ≤ b.2) l.enum).map (fun p => p.1)

/-- One entry of `interp_names[ytest]`: either the literal string
`"unassigned"` or a `(cell type name, score)` candidate. -/
inductive Interp where
  | unassigned
  | cand (name : String) (score : ℚ)
deriving DecidableEq

/-- The per-cluster body of the `name_cell_types` loop (lines 381-404),
starting from the similarity vector `prob` (the Gaussian kernel
`exp(-dist² / (2 σ²))` against each train landmark; the kernel itself is
floating-point and can underflow to exactly 0, so it is taken as an input
here).  `none` models the `normalizat == 0` branch (cluster left
unassigned, no `cluster_map` entry); otherwise the result is the ascending
list of the up-to-`top_match` best `(cell type id, aggregated probability)`
pairs, whose last element names the cluster. -/
def name_one_cluster (landmkLabels : List ℕ) (prob : List ℚ) (top : ℕ) :
    Option (List (ℕ × ℚ)) :=
  if prob.sum = 0 then none
  else
    let probN := normalizeProb prob
    let uniq := sortedUnique landmkLabels
    let probU := probUnique landmkLabels probN
    let order := argsortAsc probU
    let best := (order.drop (order.length - top)).map (fun i => uniq.getD i 0)
    let sortedv := (List.insertionSort (· ≤ ·) probU).drop (probU.length - top)
    some (best.zip sortedv)

/-- The relabelling `[cluster_map[y_pred] for y_pred in ypred_test]`
(line 407): looked up left to right, a cluster id absent from
`cluster_map` raises `KeyError`, modelled as `Except.error`. -/
def relabelClusters (cmap : List (ℕ × String)) : List ℕ → Except String (List String)
  | [] => Except.ok []
  | y :: t =>
    match cmap.lookup y with
    | none => Except.error "KeyError"
    | some n =>
      match relabelClusters cmap t with
      | Except.error e => Except.error e
      | Except.ok r => Except.ok (n :: r)

/-- `MARSTrainer.name_cell_types` (lines 343-419) from the point where the
per-cluster similarities are available: `uniq_ytest = np.unique(ypred_test)`;
per cluster either the `"unassigned"` marker (no `cluster_map` entry) or the
named candidates plus a `cluster_map` entry for the best one; finally the
relabelling of every sample's predicted cluster through `cluster_map`
(lines 406-410), which raises `KeyError` for any sample whose cluster was
left unassigned. -/
def name_cell_types (ypred : List ℕ) (sim : ℕ → List ℚ)
    (landmkLabels : List ℕ) (names : ℕ → String) (top : ℕ) :
    Except String (List (ℕ × List Interp) × List (ℕ × String) × List String) :=
  let uniq := sortedUnique ypred
  let interp := uniq.map (fun y =>
    (y, match name_one_cluster landmkLabels (sim y) top with
        | none => [Interp.unassigned]
        | some l => l.map (fun p => Interp.cand (names p.1) p.2)))
  let cmap := uniq.filterMap (fun y =>
    (name_one_cluster landmkLabels (sim y) top).map (fun l =>
      (y, names (l.getLastD (0, 0)).1)))
  match relabelClusters cmap ypred with
  | Except.error e => Except.error e
  | Except.ok relabel => Except.ok (interp, cmap, relabel)

/-- The state assembled by `MARSTrainer.__init__` (lines 19-31): the
arguments are stored unchanged; `meta_test_task` is `meta_test_tasks[0]`.
(The fields stored by `super().__init__` are the other constructor
arguments, shared verbatim; they are not repeated here.) -/
structure MARSTrainerState where
  cell_type_key : String
  n_clusters : ℕ
  meta_test_tasks : List String
  meta_test_task : String
  tau : ℚ
  eta : ℚ
  pre_train_n_epochs : ℕ
  pre_train_batch_size : ℕ
deriving DecidableEq

/-- `MARSTrainer.__init__` (lines 19-31).  `none` models the `IndexError`
of `meta_test_tasks[0]` on an empty list; no other input is rejected —
the constructor contains no validation of `tau`, `eta` or any landmark
count. -/
def MARSTrainer_init (cell_type_key : String) (n_clusters : ℕ)
    (meta_test_tasks : List String) (tau eta : ℚ)
    (pre_train_n_epochs pre_train_batch_size : ℕ) :
    Option MARSTrainerState :=
  match meta_test_tasks with
  | [] => none
  | t0 :: _ =>
    some { cell_type_key := cell_type_key
           n_clusters := n_clusters
           meta_test_tasks := meta_test_tasks
           meta_test_task := t0
           tau := tau
           eta := eta
           pre_train_n_epochs := pre_train_n_epochs
           pre_train_batch_size := pre_train_batch_size }

/-- Everything of the trainer state that the rest of the class ever reads:
after line 27, `self.meta_test_tasks` itself is never accessed again —
training (`on_training_begin`, line 36), label transfer (`name_cell_types`,
lines 363 and 407) and relabelling all go through `self.meta_test_task`
and the other fields.  This projection drops only `meta_test_tasks`. -/
def downstreamView (s : MARSTrainerState) :
    String × ℕ × String × ℚ × ℚ × ℕ × ℕ :=
  (s.cell_type_key, s.n_clusters, s.meta_test_task, s.tau, s.eta,
   s.pre_train_n_epochs, s.pre_train_batch_size)

/-- Index adjustment induced by `landmarks.eraseIdx j` on landmark indices
other than `j`. -/
def adjustIdx (j i : ℕ) : ℕ := if i < j then i else i - 1

theorem mem_sortedUnique {l : List ℕ} {a : ℕ} : a ∈ sortedUnique l ↔ a ∈ l := by
  unfold sortedUnique
  rw [(List.perm_insertionSort _ _).mem_iff, List.mem_dedup]

theorem sortedUnique_nodup (l : List ℕ) : (sortedUnique l).Nodup :=
  (List.perm_insertionSort _ _).nodup_iff.mpr l.nodup_dedup

theorem sortedUnique_sorted_le (l : List ℕ) : (sortedUnique l).Sorted (· ≤ ·) :=
  List.sorted_insertionSort _ _

theorem sortedUnique_sorted_lt (l : List ℕ) : (sortedUnique l).Sorted (· < ·) :=
  List.Sorted.lt_of_le (sortedUnique_sorted_le l) (sortedUnique_nodup l)

theorem sortedUnique_ne_nil {l : List ℕ} (h : l ≠ []) : sortedUnique l ≠ [] := by
  cases l with
  | nil => exact absurd rfl h
  | cons a t =>
    intro hh
    have ha := mem_sortedUnique.mpr (List.mem_cons_self a t)
    rw [hh] at ha
    exact absurd ha (List.not_mem_nil a)

theorem sortedUnique_map {l : List ℕ} {f : ℕ → ℕ}
    (hf : ∀ a ∈ l, ∀ b ∈ l, a < b → f a < f b) :
    sortedUnique (l.map f) = (sortedUnique l).map f := by
  have hinj : ∀ a ∈ l, ∀ b ∈ l, f a = f b → a = b := by
    intro a ha b hb hab
    rcases lt_trichotomy a b with h | h | h
    · exact absurd hab (ne_of_lt (hf a ha b hb h))
    · exact h
    · exact absurd hab.symm (ne_of_lt (hf b hb a ha h))
  have h1 : (sortedUnique (l.map f)).Sorted (· < ·) := sortedUnique_sorted_lt _
  have h2 : ((sortedUnique l).map f).Sorted (· < ·) := by
    rw [List.Sorted, List.pairwise_map]
    refine List.Pairwise.imp_of_mem ?_ (sortedUnique_sorted_lt l)
    intro a b ha hb hlt
    exact hf a (mem_sortedUnique.mp ha) b (mem_sortedUnique.mp hb) hlt
  have hperm : List.Perm (sortedUnique (l.map f)) ((sortedUnique l).map f) := by
    apply List.perm_of_nodup_nodup_toFinset_eq (sortedUnique_nodup _)
    · apply List.Nodup.map_on ?_ (sortedUnique_nodup l)
      intro a ha b hb h
      exact hinj a (mem_sortedUnique.mp ha) b (mem_sortedUnique.mp hb) h
    · ext x
      simp only [List.mem_toFinset, mem_sortedUnique, List.mem_map]
  haveI : IsAntisymm ℕ (· < ·) :=
    ⟨fun a b hab hba => absurd hba (not_lt.mpr (le_of_lt hab))⟩
  exact List.eq_of_perm_of_sorted hperm h1 h2

theorem rewriteVal_nil (x : ℕ) : rewriteVal [] x = x := rfl

theorem rewriteVal_cons (p : ℕ × ℕ) (ps : List (ℕ × ℕ)) (x : ℕ) :
    rewriteVal (p :: ps) x = rewriteVal ps (if x = p.2 then p.1 else x) := rfl

theorem rewriteVal_of_not_mem {ps : List (ℕ × ℕ)} {x : ℕ}
    (h : ∀ p ∈ ps, x ≠ p.2) : rewriteVal ps x = x := by
  induction ps with
  | nil => rfl
  | cons p t ih =>
    rw [rewriteVal_cons, if_neg (h p (List.mem_cons_self p t))]
    exact ih fun q hq => h q (List.mem_cons_of_mem _ hq)

theorem rewriteVal_enumFrom (i : ℕ) {vs : List ℕ} {x : ℕ}
    (hs : vs.Sorted (· < ·)) (hge : ∀ w ∈ vs, i ≤ w) (hx : x ∈ vs) :
    rewriteVal (List.enumFrom i vs) x = i + vs.indexOf x := by
  induction vs generalizing i with
  | nil => cases hx
  | cons v t ih =>
    have hvt : ∀ w ∈ t, v < w := List.rel_of_sorted_cons hs
    have hiv : i ≤ v := hge v (List.mem_cons_self v t)
    rw [List.enumFrom_cons, rewriteVal_cons]
    by_cases hxv : x = v
    · subst hxv
      rw [if_pos rfl, List.indexOf_cons_self]
      have hstay : rewriteVal (List.enumFrom (i + 1) t) i = i := by
        apply rewriteVal_of_not_mem
        intro p hp
        have hp2 : p.2 ∈ t := List.snd_mem_of_mem_enumFrom hp
        have := hvt p.2 hp2
        omega
      rw [hstay]
      omega
    · rw [if_neg hxv]
      have hx' : x ∈ t := by
        rcases List.mem_cons.mp hx with h | h
        · exact absurd h hxv
        · exact h
      rw [ih (i + 1) hs.of_cons
        (fun w hw => Nat.succ_le_of_lt (lt_of_le_of_lt hiv (hvt w hw))) hx']
      rw [List.indexOf_cons_ne _ (fun h => hxv h.symm)]
      omega

theorem foldl_map_swap (ps : List (ℕ × ℕ)) (labels : List ℕ) :
    ps.foldl (fun ls p => ls.map (fun x => if x = p.2 then p.1 else x)) labels
      = labels.map (rewriteVal ps) := by
  induction ps generalizing labels with
  | nil =>
    simp only [List.foldl_nil]
    have : rewriteVal ([] : List (ℕ × ℕ)) = id := rfl
    rw [this, List.map_id]
  | cons p t ih =>
    simp only [List.foldl_cons]
    rw [ih, List.map_map]
    rfl

theorem rewriteLoop_eq_map (uniq labels : List ℕ) :
    rewriteLoop uniq labels = labels.map (rewriteVal uniq.enum) :=
  foldl_map_swap uniq.enum labels

theorem rewriteLoop_sortedUnique (labels : List ℕ) :
    rewriteLoop (sortedUnique labels) labels
      = labels.map (fun x => (sortedUnique labels).indexOf x) := by
  rw [rewriteLoop_eq_map]
  apply List.map_congr_left
  intro x hx
  have h := rewriteVal_enumFrom 0 (sortedUnique_sorted_lt labels)
    (fun w _ => Nat.zero_le w) (mem_sortedUnique.mpr hx)
  have henum : (sortedUnique labels).enum = List.enumFrom 0 (sortedUnique labels) := rfl
  rw [henum, h]
  omega

theorem indexOf_map_injOn {f : ℕ → ℕ} {u : List ℕ} {x : ℕ}
    (hinj : ∀ a ∈ u, f a = f x → a = x) :
    (u.map f).indexOf (f x) = u.indexOf x := by
  induction u with
  | nil => rfl
  | cons a t ih =>
    by_cases hax : a = x
    · subst hax
      simp [List.indexOf_cons_self]
    · have hfa : f a ≠ f x := fun h => hax (hinj a (List.mem_cons_self a t) h)
      rw [List.map_cons, List.indexOf_cons_ne _ hfa, List.indexOf_cons_ne _ hax,
        ih fun b hb => hinj b (List.mem_cons_of_mem _ hb)]

theorem rewriteLoop_map_mono {labels : List ℕ} {f : ℕ → ℕ}
    (hf : ∀ a ∈ labels, ∀ b ∈ labels, a < b → f a < f b) :
    rewriteLoop (sortedUnique (labels.map f)) (labels.map f)
      = rewriteLoop (sortedUnique labels) labels := by
  have hinj : ∀ a ∈ labels, ∀ b ∈ labels, f a = f b → a = b := by
    intro a ha b hb hab
    rcases lt_trichotomy a b with h | h | h
    · exact absurd hab (ne_of_lt (hf a ha b hb h))
    · exact h
    · exact absurd hab.symm (ne_of_lt (hf b hb a ha h))
  rw [rewriteLoop_sortedUnique, rewriteLoop_sortedUnique, sortedUnique_map hf,
    List.map_map]
  apply List.map_congr_left
  intro x hx
  exact indexOf_map_injOn fun a ha hfa => hinj a (mem_sortedUnique.mp ha) x hx hfa

/-- C9: the accuracy returned by `task_loss` is unchanged when the label
values are pushed through any strictly order-preserving relabelling of the
values that occur: the in-place re-indexing maps both label vectors to the
same contiguous `0..k-1` codes, and the predictions do not read the labels
at all. -/
theorem C9_task_loss_accuracy_invariant {α : Type} (dist : α → α → ℚ)
    (embeddings landmarks : List α) (labels : List ℕ) (f : ℕ → ℕ)
    (hf : ∀ a ∈ labels, ∀ b ∈ labels, a < b → f a < f b) :
    (task_loss dist embeddings (labels.map f) landmarks).2
      = (task_loss dist embeddings labels landmarks).2 := by
  unfold task_loss
  simp only [rewriteLoop_map_mono hf]

/-- Witness for C9 at a concrete input: relabelling `[1, 2]` by the
strictly increasing map `n ↦ n + 5` leaves the accuracy unchanged. -/
theorem C9_task_loss_accuracy_invariant_witness :
    (task_loss euclidean_dist [0, 3] ([1, 2].map (fun n => n + 5)) [0, 3]).2
      = (task_loss euclidean_dist [0, 3] [1, 2] [0, 3]).2 :=
  C9_task_loss_accuracy_invariant euclidean_dist [0, 3] [0, 3] [1, 2]
    (fun n => n + 5) (by decide)

/-- C3: with previous landmarks present, `2 ≤ k` landmarks and
`0 < tau < 1`, the updated landmark for each index `i` is
`(1/(1-tau)) * (mean_i - (tau/(k-1)) * (sum of previous landmarks -
previous landmark i))`, where `mean_i` is the mean of the embeddings whose
label is the `i`-th sorted distinct label (i.e. whose re-indexed label is
`i`).  Stated as the full result list, one entry per landmark index. -/
theorem C3_update_landmarks_formula (embeddings : List Vec) (labels : List ℕ)
    (prev : List Vec) (tau : ℚ) (h0 : 0 < tau) (h1 : tau < 1)
    (hk : 2 ≤ prev.length) (hne : labels ≠ [])
    (hlen : (sortedUnique labels).length = prev.length) :
    update_meta_train_landmarks embeddings labels (some prev) tau
      = some (List.zipWith (fun v p =>
          vscale (1 / (1 - tau)) (vsub (vmean (classEmb embeddings labels v))
            (vscale (tau / ((prev.length : ℚ) - 1)) (vsub (vsum prev) p))))
          (sortedUnique labels) prev) := by
  unfold update_meta_train_landmarks
  rw [if_neg hne]
  simp only [if_neg (ne_of_gt h0), if_neg (by omega : ¬ prev.length ≤ 1),
    if_neg (ne_of_lt h1)]
  unfold landmarksMeanOf
  rw [List.zipWith_map_right, List.zipWith_map_left]

/-- Witness for C3 at a concrete input: two classes, two previous
landmarks, `tau = 1/2`. -/
theorem C3_update_landmarks_formula_witness :
    update_meta_train_landmarks [[1, 2], [3, 4]] [5, 9]
        (some [[0, 0], [1, 1]]) (1 / 2)
      = some (List.zipWith (fun v p =>
          vscale (1 / (1 - (1 / 2 : ℚ)))
            (vsub (vmean (classEmb [[1, 2], [3, 4]] [5, 9] v))
              (vscale ((1 / 2 : ℚ) / ((([[0, 0], [1, 1]] : List Vec).length : ℚ) - 1))
                (vsub (vsum [[0, 0], [1, 1]]) p))))
          (sortedUnique [5, 9]) [[0, 0], [1, 1]]) :=
  C3_update_landmarks_formula [[1, 2], [3, 4]] [5, 9] [[0, 0], [1, 1]] (1 / 2)
    (by norm_num) (by norm_num) (by decide) (by decide) (by decide)

/-- C4: with `tau = 0` the update returns exactly the per-class means,
whatever `previous_landmarks` is (present or absent). -/
theorem C4_update_tau_zero (embeddings : List Vec) (labels : List ℕ)
    (prevOpt : Option (List Vec)) (hne : labels ≠ []) :
    update_meta_train_landmarks embeddings labels prevOpt 0
      = some (landmarksMeanOf embeddings labels) := by
  unfold update_meta_train_landmarks
  rw [if_neg hne]
  cases prevOpt with
  | none => rfl
  | some prev => simp

/-- Witness for C4 at a concrete input, with previous landmarks present:
the result is the per-class mean and ignores them. -/
theorem C4_update_tau_zero_witness :
    update_meta_train_landmarks [[1, 2], [3, 4]] [5, 9]
        (some [[7, 7], [8, 8]]) 0
      = some (landmarksMeanOf [[1, 2], [3, 4]] [5, 9]) :=
  C4_update_tau_zero [[1, 2], [3, 4]] [5, 9] (some [[7, 7], [8, 8]])
    (by decide)

/-- C1 (code bug): at one labeled task with one batch
(model loss 1, task loss 1, size 1), one meta-test batch
(model loss 0, test loss 0) and `eta = 1`, the loss the code
backpropagates is `0` — the labeled task's contribution has been
overwritten, not accumulated — while the loss described by the spec
(every labeled task's `eta * reconstruction + task_loss` summed with the
unlabeled contribution, over `n_tasks + 1`) is `1`. -/
theorem C1_encoder_loss_discards_labeled_tasks :
    on_epoch_encoder_loss 1 [[⟨1, 1, 1⟩]] [(0, 0)] = 0
      ∧ on_epoch_encoder_loss_spec 1 [[⟨1, 1, 1⟩]] [(0, 0)] = 1 := by
  constructor <;>
    norm_num [on_epoch_encoder_loss, on_epoch_encoder_loss_spec,
      encoderTaskPhase, taskDatasetSize]

/-- C5 (code bug): the learning-rate scheduler created at lines 61-63 is
never stepped — neither inside any epoch's `on_epoch` call sequence nor
anywhere in the whole training loop — for any number of epochs and
meta-test batches, whereas the claim requires exactly one
`schedulerStep` per epoch after the encoder optimizer step. -/
theorem C5_scheduler_never_stepped (nEpochs nTestBatches : ℕ) :
    (train_opt_events nEpochs nTestBatches).count OptEvent.schedulerStep = 0
      ∧ (on_epoch_opt_events nTestBatches).count OptEvent.schedulerStep = 0 := by
  have hrep : ∀ (n : ℕ) (L : List OptEvent), L.count OptEvent.schedulerStep = 0 →
      ((List.replicate n L).flatten).count OptEvent.schedulerStep = 0 := by
    intro n L h
    induction n with
    | zero => rfl
    | succ m ih =>
      rw [List.replicate_succ, List.flatten_cons, List.count_append, h, ih]
  have hepoch : ∀ b : ℕ,
      (on_epoch_opt_events b).count OptEvent.schedulerStep = 0 := by
    intro b
    unfold on_epoch_opt_events
    rw [List.count_append, List.count_append, hrep b _ (by decide)]
    decide
  exact ⟨hrep nEpochs _ (hepoch nTestBatches), hepoch nTestBatches⟩

/-- C6 (code bug): a cluster with zero total similarity is marked
`"unassigned"` (`name_one_cluster = none`), but `name_cell_types` then
fails with a `KeyError` instead of completing: the unassigned cluster gets
no `cluster_map` entry, and the unconditional relabelling of line 407
looks every predicted cluster up in `cluster_map`.  Concretely: clusters
`0` and `1`, cluster `0` with similarity vector `[0]` (zero total),
cluster `1` assignable. -/
theorem C6_label_transfer_keyerror :
    name_one_cluster [5] [0] 5 = none
      ∧ name_cell_types [0, 1] (fun y => if y = 0 then [0] else [1])
          [5] (fun _ => "c") 5 = Except.error "KeyError" := by
  constructor
  · norm_num [name_one_cluster]
  · norm_num [name_cell_types, name_one_cluster, normalizeProb, probUnique,
      argsortAsc, sortedUnique, relabelClusters, List.dedup,
      List.insertionSort, List.orderedInsert, List.filterMap, List.lookup]
    rfl

/-- C7 (counterexample): `MARSTrainer.__init__` accepts `tau = 1` — a
configuration the claim says is rejected eagerly — storing it unchanged,
and the error instead surfaces later, inside
`update_meta_train_landmarks`, as a division by zero (`1 / (1 - tau)`,
modelled `none`). -/
theorem C7_no_eager_validation_counterexample :
    (MARSTrainer_init "cell_type" 3 ["t0"] 1 1 100 128).map (fun s => s.tau)
        = some 1
      ∧ update_meta_train_landmarks [[1]] [0] (some [[0], [2]]) 1 = none :=
  ⟨rfl, rfl⟩

/-- C7 (amended): no eager validation happens at construction — the
constructor stores any `tau` (including `tau ≥ 1`) unchanged — and the
misconfigurations surface only inside `update_meta_train_landmarks`:
`tau = 1` hits the `1 / (1 - tau)` division by zero, and a single previous
landmark with `tau ≠ 0` hits the `tau / (n_landmarks - 1)` division by
zero (both modelled `none`). -/
theorem C7_amended_validation_deferred (ct : String) (nc : ℕ)
    (tasks : List String) (tau eta : ℚ) (a b : ℕ) (hts : tasks ≠ []) :
    (MARSTrainer_init ct nc tasks tau eta a b).map (fun s => s.tau) = some tau
      ∧ (∀ (emb : List Vec) (labels : List ℕ) (prev : List Vec),
          labels ≠ [] → 2 ≤ prev.length →
          update_meta_train_landmarks emb labels (some prev) 1 = none)
      ∧ (∀ (emb : List Vec) (labels : List ℕ) (p : Vec) (t : ℚ),
          labels ≠ [] → t ≠ 0 →
          update_meta_train_landmarks emb labels (some [p]) t = none) := by
  refine ⟨?_, ?_, ?_⟩
  · cases tasks with
    | nil => exact absurd rfl hts
    | cons t0 rest => rfl
  · intro emb labels prev hl hk
    unfold update_meta_train_landmarks
    rw [if_neg hl]
    simp only [if_neg (one_ne_zero), if_neg (by omega : ¬ prev.length ≤ 1),
      if_pos rfl]
    simp
  · intro emb labels p t hl ht
    unfold update_meta_train_landmarks
    rw [if_neg hl]
    simp only [if_neg ht, List.length_singleton, if_pos (le_refl 1)]

/-- Witness for the amended C7 at a concrete input. -/
theorem C7_amended_validation_deferred_witness :
    ((MARSTrainer_init "x" 0 ["a"] 7 1 0 0).map (fun s => s.tau) = some 7
      ∧ (∀ (emb : List Vec) (labels : List ℕ) (prev : List Vec),
          labels ≠ [] → 2 ≤ prev.length →
          update_meta_train_landmarks emb labels (some prev) 1 = none)
      ∧ (∀ (emb : List Vec) (labels : List ℕ) (p : Vec) (t : ℚ),
          labels ≠ [] → t ≠ 0 →
          update_meta_train_landmarks emb labels (some [p]) t = none)) :=
  C7_amended_validation_deferred "x" 0 ["a"] 7 1 0 0 (by decide)

/-- C10: two constructions differing only in the elements of
`meta_test_tasks` after index 0 yield states that agree on everything the
rest of the class ever reads (`downstreamView`): only `meta_test_tasks[0]`
is ever extracted. -/
theorem C10_only_first_meta_test_task_matters (ct : String) (nc : ℕ)
    (tau eta : ℚ) (a b : ℕ) (l1 l2 : List String)
    (h : l1.head? = l2.head?) :
    (MARSTrainer_init ct nc l1 tau eta a b).map downstreamView
      = (MARSTrainer_init ct nc l2 tau eta a b).map downstreamView := by
  cases l1 with
  | nil =>
    cases l2 with
    | nil => rfl
    | cons y u => simp [List.head?] at h
  | cons x t =>
    cases l2 with
    | nil => simp [List.head?] at h
    | cons y u =>
      simp only [List.head?, Option.some.injEq] at h
      subst h
      rfl

/-- Witness for C10: task lists `["a", "b"]` and `["a", "c"]` share index 0
and produce identical downstream views. -/
theorem C10_only_first_meta_test_task_matters_witness :
    (MARSTrainer_init "k" 2 ["a", "b"] 1 1 3 4).map downstreamView
      = (MARSTrainer_init "k" 2 ["a", "c"] 1 1 3 4).map downstreamView :=
  C10_only_first_meta_test_task_matters "k" 2 1 1 3 4 ["a", "b"] ["a", "c"] rfl

theorem sum_map_div (l : List ℚ) (c : ℚ) :
    (l.map (fun x => x / c)).sum = l.sum / c := by
  induction l with
  | nil => simp
  | cons a t ih => simp [ih, add_div]

theorem sum_normalizeProb {prob : List ℚ} (h : prob.sum ≠ 0) :
    (normalizeProb prob).sum = 1 := by
  unfold normalizeProb
  rw [sum_map_div, div_self h]

theorem sum_map_filter_add (l : List (ℕ × ℚ)) (f : ℕ × ℚ → ℚ)
    (q : ℕ × ℚ → Bool) :
    ((l.filter q).map f).sum + ((l.filter (fun x => ! q x)).map f).sum
      = (l.map f).sum := by
  induction l with
  | nil => simp
  | cons a t ih =>
    by_cases h : q a
    · simp only [List.filter_cons, h, Bool.not_true, Bool.false_eq_true,
        if_true, if_false, List.map_cons, List.sum_cons]
      rw [add_assoc, ih]
    · simp only [List.filter_cons, h, Bool.not_false, Bool.false_eq_true,
        if_true, if_false, List.map_cons, List.sum_cons]
      rw [← ih]
      ring
theorem sum_filter_fst_partition (us : List ℕ) (pairs : List (ℕ × ℚ))
    (hn : us.Nodup) (hmem : ∀ p ∈ pairs, p.1 ∈ us) :
    (us.map (fun c =>
      ((pairs.filter (fun p => p.1 = c)).map (fun p => p.2)).sum)).sum
      = (pairs.map (fun p => p.2)).sum := by
  induction us generalizing pairs with
  | nil =>
    cases pairs with
    | nil => simp
    | cons p t =>
      exact absurd (hmem p (List.mem_cons_self p t)) (List.not_mem_nil p.1)
  | cons c rest ih =>
    have hsplit := sum_map_filter_add pairs (fun p => p.2)
      (fun p => decide (p.1 = c))
    simp only [List.map_cons, List.sum_cons]
    have hrest : (rest.map (fun d =>
        ((pairs.filter (fun p => p.1 = d)).map (fun p => p.2)).sum)).sum
        = (rest.map (fun d =>
          (((pairs.filter (fun p => ! decide (p.1 = c))).filter
            (fun p => p.1 = d)).map (fun p => p.2)).sum)).sum := by
      congr 1
      apply List.map_congr_left
      intro d hd
      have hdc : d ≠ c := fun h => (List.nodup_cons.mp hn).1 (h ▸ hd)
      rw [List.filter_filter]
      congr 1
      congr 1
      apply List.filter_congr
      intro p hp
      by_cases hpd : p.1 = d
      · have hpc : p.1 ≠ c := fun h => hdc (hpd.symm.trans h)
        simp [hpd, hpc, hdc]
      · simp [hpd]
    rw [hrest, ih (pairs.filter (fun p => ! decide (p.1 = c)))
      (List.nodup_cons.mp hn).2 ?hm]
    · exact hsplit
    · intro p hp
      have h1 := List.mem_of_mem_filter hp
      have h2 := List.of_mem_filter hp
      have h3 := hmem p h1
      simp only [Bool.not_eq_true', decide_eq_false_iff_not] at h2
      rcases List.mem_cons.mp h3 with h | h
      · exact absurd h h2
      · exact h

/-- C8: for a cluster whose total similarity is strictly positive, the
normalized per-landmark probabilities sum to 1, and the per-cell-type
aggregated probabilities (summing over all landmarks sharing a label)
also sum to 1. -/
theorem C8_probabilities_sum_to_one (landmkLabels : List ℕ) (prob : List ℚ)
    (hpos : 0 < prob.sum) (hlen : prob.length = landmkLabels.length) :
    (normalizeProb prob).sum = 1
      ∧ (probUnique landmkLabels (normalizeProb prob)).sum = 1 := by
  have hone := sum_normalizeProb (ne_of_gt hpos)
  refine ⟨hone, ?_⟩
  unfold probUnique
  rw [sum_filter_fst_partition (sortedUnique landmkLabels)
    (landmkLabels.zip (normalizeProb prob)) (sortedUnique_nodup _)
    (fun p hp => mem_sortedUnique.mpr (List.of_mem_zip hp).1)]
  have hmap : (landmkLabels.zip (normalizeProb prob)).map (fun p => p.2)
      = normalizeProb prob := by
    have hlen2 : (normalizeProb prob).length ≤ landmkLabels.length := by
      unfold normalizeProb
      rw [List.length_map, hlen]
    exact List.map_snd_zip landmkLabels (normalizeProb prob) hlen2
  rw [hmap, hone]

/-- Witness for C8 at a concrete input: three landmarks with labels
`[5, 5, 7]` and similarities `[1, 1, 2]`. -/
theorem C8_probabilities_sum_to_one_witness :
    (normalizeProb [1, 1, 2]).sum = 1
      ∧ (probUnique [5, 5, 7] (normalizeProb [1, 1, 2])).sum = 1 :=
  C8_probabilities_sum_to_one [5, 5, 7] [1, 1, 2]
    (by norm_num [List.sum_cons, List.sum_nil]) (by decide)

theorem listMin_cons (a : ℚ) (t : List ℚ) (h : t ≠ []) :
    listMin (a :: t) = min a (listMin t) := by
  cases t with
  | nil => exact absurd rfl h
  | cons b u => rfl

theorem argminFirst_cons (a : ℚ) (t : List ℚ) (h : t ≠ []) :
    argminFirst (a :: t) = if a ≤ listMin t then 0 else argminFirst t + 1 := by
  cases t with
  | nil => exact absurd rfl h
  | cons b u => rfl

theorem listMin_mem {l : List ℚ} (h : l ≠ []) : listMin l ∈ l := by
  induction l with
  | nil => exact absurd rfl h
  | cons a t ih =>
    cases t with
    | nil => simp [listMin]
    | cons b u =>
      rw [listMin_cons a (b :: u) (by simp)]
      rcases le_total a (listMin (b :: u)) with hle | hle
      · rw [min_eq_left hle]; exact List.mem_cons_self a _
      · rw [min_eq_right hle]
        exact List.mem_cons_of_mem a (ih (by simp))

theorem listMin_le {l : List ℚ} {x : ℚ} (hx : x ∈ l) : listMin l ≤ x := by
  induction l with
  | nil => cases hx
  | cons a t ih =>
    cases t with
    | nil =>
      rcases List.mem_cons.mp hx with h | h
      · simp [listMin, h]
      · cases h
    | cons b u =>
      rw [listMin_cons a (b :: u) (by simp)]
      rcases List.mem_cons.mp hx with h | h
      · rw [h]; exact min_le_left _ _
      · exact le_trans (min_le_right _ _) (ih h)

theorem listMin_le_eraseIdx (t : List ℚ) (k : ℕ) (h : t.eraseIdx k ≠ []) :
    listMin t ≤ listMin (t.eraseIdx k) :=
  listMin_le ((t.eraseIdx_sublist k).subset (listMin_mem h))

theorem eraseIdx_ne_nil_of_argmin {t : List ℚ} {k : ℕ} (hk : k < t.length)
    (hat : argminFirst t ≠ k) : t.eraseIdx k ≠ [] := by
  intro hnil
  cases t with
  | nil => simp at hk
  | cons a u =>
    cases k with
    | zero =>
      have hu : u = [] := hnil
      subst hu
      exact hat rfl
    | succ m => simp [List.eraseIdx] at hnil

theorem listMin_eraseIdx {l : List ℚ} {j : ℕ} (hj : j < l.length)
    (h : argminFirst l ≠ j) : listMin (l.eraseIdx j) = listMin l := by
  induction l generalizing j with
  | nil => simp at hj
  | cons a t ih =>
    cases j with
    | zero =>
      cases t with
      | nil => exact absurd rfl h
      | cons b u =>
        have hna : ¬ a ≤ listMin (b :: u) := by
          intro hle
          apply h
          rw [argminFirst_cons a (b :: u) (by simp), if_pos hle]
        show listMin (b :: u) = listMin (a :: b :: u)
        rw [listMin_cons a (b :: u) (by simp),
          min_eq_right (le_of_lt (not_le.mp hna))]
    | succ k =>
      have hk : k < t.length := by simpa using hj
      have htne : t ≠ [] := by
        intro hnil; rw [hnil] at hk; simp at hk
      show listMin (a :: t.eraseIdx k) = listMin (a :: t)
      by_cases hle : a ≤ listMin t
      · rw [listMin_cons a t htne, min_eq_left hle]
        cases hE : t.eraseIdx k with
        | nil => rfl
        | cons c v =>
          rw [listMin_cons a (c :: v) (by simp)]
          have : a ≤ listMin (c :: v) := by
            rw [← hE]
            exact le_trans hle (listMin_le_eraseIdx t k (by rw [hE]; simp))
          rw [min_eq_left this]
      · have hat : argminFirst t ≠ k := by
          intro he
          apply h
          rw [argminFirst_cons a t htne, if_neg hle, he]
        have hEne : t.eraseIdx k ≠ [] := eraseIdx_ne_nil_of_argmin hk hat
        rw [listMin_cons a _ hEne, listMin_cons a t htne, ih hk hat]

theorem argminFirst_eraseIdx {l : List ℚ} {j : ℕ} (hj : j < l.length)
    (h : argminFirst l ≠ j) :
    argminFirst (l.eraseIdx j) = adjustIdx j (argminFirst l) := by
  induction l generalizing j with
  | nil => simp at hj
  | cons a t ih =>
    cases j with
    | zero =>
      cases t with
      | nil => exact absurd rfl h
      | cons b u =>
        have hna : ¬ a ≤ listMin (b :: u) := by
          intro hle
          apply h
          rw [argminFirst_cons a (b :: u) (by simp), if_pos hle]
        show argminFirst (b :: u) = adjustIdx 0 (argminFirst (a :: b :: u))
        rw [argminFirst_cons a (b :: u) (by simp), if_neg hna]
        unfold adjustIdx
        simp
    | succ k =>
      have hk : k < t.length := by simpa using hj
      have htne : t ≠ [] := by
        intro hnil; rw [hnil] at hk; simp at hk
      show argminFirst (a :: t.eraseIdx k) = adjustIdx (k + 1) (argminFirst (a :: t))
      by_cases hle : a ≤ listMin t
      · have h0 : argminFirst (a :: t) = 0 := by
          rw [argminFirst_cons a t htne, if_pos hle]
        rw [h0]
        cases hE : t.eraseIdx k with
        | nil =>
          unfold adjustIdx
          simp [argminFirst]
        | cons c v =>
          have hle2 : a ≤ listMin (c :: v) := by
            rw [← hE]
            exact le_trans hle (listMin_le_eraseIdx t k (by rw [hE]; simp))
          rw [argminFirst_cons a (c :: v) (by simp), if_pos hle2]
          unfold adjustIdx
          simp
      · have hat : argminFirst t ≠ k := by
          intro he
          apply h
          rw [argminFirst_cons a t htne, if_neg hle, he]
        have hEne : t.eraseIdx k ≠ [] := eraseIdx_ne_nil_of_argmin hk hat
        have hle2 : ¬ a ≤ listMin (t.eraseIdx k) := by
          rw [listMin_eraseIdx hk hat]; exact hle
        rw [argminFirst_cons a _ hEne, if_neg hle2, ih hk hat,
          argminFirst_cons a t htne, if_neg hle]
        unfold adjustIdx
        by_cases hlt : argminFirst t < k
        · rw [if_pos hlt, if_pos (by omega)]
        · have hgt : k < argminFirst t := by omega
          rw [if_neg hlt, if_neg (by omega)]
          omega

theorem adjustIdx_monoOn {j a b : ℕ} (ha : a ≠ j) (hb : b ≠ j) (hab : a < b) :
    adjustIdx j a < adjustIdx j b := by
  unfold adjustIdx
  by_cases h1 : a < j <;> by_cases h2 : b < j <;>
    simp only [h1, h2, if_true, if_false] <;> omega

theorem adjustIdx_injOn {j a b : ℕ} (ha : a ≠ j) (hb : b ≠ j)
    (hab : adjustIdx j a = adjustIdx j b) : a = b := by
  rcases lt_trichotomy a b with h | h | h
  · exact absurd hab (ne_of_lt (adjustIdx_monoOn ha hb h))
  · exact h
  · exact absurd hab.symm (ne_of_lt (adjustIdx_monoOn hb ha h))

theorem map_eraseIdx {α β : Type} (f : α → β) (l : List α) (n : ℕ) :
    (l.eraseIdx n).map f = (l.map f).eraseIdx n := by
  induction l generalizing n with
  | nil => simp
  | cons a t ih => cases n <;> simp [List.eraseIdx, ih]

theorem groupMean_relabel (pairs : List (ℕ × ℚ)) (g : ℕ → ℕ)
    (hmono : ∀ a ∈ pairs.map (fun p => p.1), ∀ b ∈ pairs.map (fun p => p.1),
      a < b → g a < g b) :
    qmean ((sortedUnique ((pairs.map (fun p => (g p.1, p.2))).map
      (fun p => p.1))).map
        (fun u => qmean (((pairs.map (fun p => (g p.1, p.2))).filter
          (fun p => p.1 = u)).map (fun p => p.2))))
      = qmean ((sortedUnique (pairs.map (fun p => p.1))).map
          (fun u => qmean ((pairs.filter (fun p => p.1 = u)).map
            (fun p => p.2)))) := by
  have hginj : ∀ a ∈ pairs.map (fun p => p.1), ∀ b ∈ pairs.map (fun p => p.1),
      g a = g b → a = b := by
    intro a ha b hb hab
    rcases lt_trichotomy a b with h | h | h
    · exact absurd hab (ne_of_lt (hmono a ha b hb h))
    · exact h
    · exact absurd hab.symm (ne_of_lt (hmono b hb a ha h))
  have hfst : (pairs.map (fun p => ((g p.1 : ℕ), p.2))).map (fun p => p.1)
      = (pairs.map (fun p => p.1)).map g := by
    rw [List.map_map, List.map_map]
    rfl
  rw [hfst, sortedUnique_map hmono, List.map_map]
  congr 1
  apply List.map_congr_left
  intro u hu
  have humem : u ∈ pairs.map (fun p => p.1) := mem_sortedUnique.mp hu
  show qmean (((pairs.map (fun p => (g p.1, p.2))).filter
      (fun p => p.1 = g u)).map (fun p => p.2))
    = qmean ((pairs.filter (fun p => p.1 = u)).map (fun p => p.2))
  congr 1
  rw [List.filter_map, List.map_map]
  have hfil : pairs.filter ((fun (p : ℕ × ℚ) => decide (p.1 = g u)) ∘
      (fun p => (g p.1, p.2))) = pairs.filter (fun p => decide (p.1 = u)) := by
    apply List.filter_congr
    intro p hp
    simp only [Function.comp]
    by_cases hpu : p.1 = u
    · simp [hpu]
    · have hgne : g p.1 ≠ g u := by
        intro he
        exact hpu (hginj p.1 (List.mem_map_of_mem _ hp) u humem he)
      simp [hpu, hgne]
  rw [hfil]
  rfl

/-- C2 (amended): if some landmark with index `j` is never the nearest
landmark for any embedding, then `test_loss` on the landmark collection
with index `j` erased equals `test_loss` on the full collection,
provided `tau ≤ 0`, so that the repulsion term — which sums pairwise
distances over the full landmark collection, removed landmark included —
is not added; for `tau > 0` the equality fails
(see the counterexample). -/
theorem C2_amended_test_loss_drop_unused {α : Type} (dist : α → α → ℚ)
    (embeddings landmarks : List α) (tau : ℚ) (j : ℕ)
    (htau : tau ≤ 0) (hj : j < landmarks.length)
    (hnever : ∀ e ∈ embeddings, argminFirst (landmarks.map (dist e)) ≠ j) :
    test_loss dist embeddings (landmarks.eraseIdx j) tau
      = test_loss dist embeddings landmarks tau := by
  have hpairs : embeddings.map (fun e =>
        (argminFirst ((landmarks.eraseIdx j).map (dist e)),
         listMin ((landmarks.eraseIdx j).map (dist e))))
      = (embeddings.map (fun e =>
          (argminFirst (landmarks.map (dist e)),
           listMin (landmarks.map (dist e))))).map
        (fun p => (adjustIdx j p.1, p.2)) := by
    rw [List.map_map]
    apply List.map_congr_left
    intro e he
    have hjlen : j < (landmarks.map (dist e)).length := by
      rw [List.length_map]; exact hj
    show (argminFirst ((landmarks.eraseIdx j).map (dist e)),
          listMin ((landmarks.eraseIdx j).map (dist e)))
        = (adjustIdx j (argminFirst (landmarks.map (dist e))),
           listMin (landmarks.map (dist e)))
    rw [map_eraseIdx, argminFirst_eraseIdx hjlen (hnever e he),
      listMin_eraseIdx hjlen (hnever e he)]
  have hmono : ∀ a ∈ (embeddings.map (fun e =>
        (argminFirst (landmarks.map (dist e)),
         listMin (landmarks.map (dist e))))).map (fun p => p.1),
      ∀ b ∈ (embeddings.map (fun e =>
        (argminFirst (landmarks.map (dist e)),
         listMin (landmarks.map (dist e))))).map (fun p => p.1),
      a < b → adjustIdx j a < adjustIdx j b := by
    intro a ha b hb hab
    rw [List.map_map] at ha hb
    rcases List.mem_map.mp ha with ⟨e, he, hea⟩
    rcases List.mem_map.mp hb with ⟨e2, he2, heb⟩
    exact adjustIdx_monoOn (hea ▸ hnever e he) (heb ▸ hnever e2 he2) hab
  unfold test_loss
  rw [if_neg (not_lt.mpr htau), if_neg (not_lt.mpr htau), hpairs]
  exact groupMean_relabel _ (adjustIdx j) hmono

/-- C2 (counterexample): with `tau = 1/2 > 0`, embeddings `[0, 6]` and
landmarks `[0, 6, 100]` (one dimension, exact Euclidean distance), the
landmark at index 2 is never the nearest for any embedding, yet removing
it changes `test_loss` (`-100/3` against `-3`): the repulsion term sums
pairwise distances over the full landmark collection, removed landmark
included. -/
theorem C2_test_loss_counterexample :
    argminFirst ([0, 6, 100].map (euclidean_dist 0)) ≠ 2
      ∧ argminFirst ([0, 6, 100].map (euclidean_dist 6)) ≠ 2
      ∧ ([0, 6, 100] : List ℚ).eraseIdx 2 = [0, 6]
      ∧ test_loss euclidean_dist [0, 6] [0, 6, 100] (1 / 2)
          ≠ test_loss euclidean_dist [0, 6] [0, 6] (1 / 2) := by
  refine ⟨?_, ?_, ?_, ?_⟩
  · norm_num [argminFirst, listMin, euclidean_dist]
  · norm_num [argminFirst, listMin, euclidean_dist]
  · rfl
  · norm_num [test_loss, euclidean_dist, argminFirst, listMin, sortedUnique,
      qmean, List.dedup, List.insertionSort, List.orderedInsert]

/-- Witness for the amended C2 at a concrete input: `tau = 0`, a discrete
distance, landmark index 2 never nearest, equality after erasing it. -/
theorem C2_amended_test_loss_drop_unused_witness :
    test_loss (fun a b : ℕ => if a = b then (0 : ℚ) else 1) [10, 20]
        ([10, 20, 30].eraseIdx 2) 0
      = test_loss (fun a b : ℕ => if a = b then (0 : ℚ) else 1) [10, 20]
          [10, 20, 30] 0 :=
  C2_amended_test_loss_drop_unused (fun a b : ℕ => if a = b then (0 : ℚ) else 1)
    [10, 20] [10, 20, 30] 0 2 (le_refl 0) (by decide) (by decide)
